import Mathlib

/-!
Verification development for the wflos kernel bootstrap layer.

Shallow embedding of:
  - src/kernel/src/memory/frame_allocator.rs  (bitmap physical-frame allocator)
  - src/kernel/src/arch/x86_64/gdt.rs          (segment table constants)
  - src/kernel/src/arch/x86_64/idt.rs          (interrupt descriptor construction)
  - src/kernel/src/arch/x86_64/pic/mod.rs      (end-of-interrupt port writes)
  - src/kernel/src/sync/spinlock.rs            (spin lock, as an interleaving
    transition system over two execution contexts)

Machine integers are modelled as `Nat`; the Rust code in question never
overflows (all quantities are frame counts and addresses well below 2^64,
and the one mask/shift site, `IdtEntry::new`, is modelled with the same
mask/shift operators).  The allocator bitmap `[u8; BITMAP_SIZE]` is
modelled as the function sending a frame index to its bit: Rust frame
index `i` lives at bit `i % 8` of byte `i / 8`, a bijective packing, so
the byte array is exactly a function `Nat → Bool` on frame indices.
-/

namespace Wflos

/-! ### Data model, from frame_allocator.rs and limine.rs -/

def FRAME_SIZE : Nat := 4096

def MAX_REGIONS : Nat := 64

def LIMINE_MEMMAP_USABLE : Nat := 0

structure MemoryRegion where
  base : Nat
  frame_count : Nat
deriving DecidableEq, Repr

structure LimineMemoryMapEntry where
  base : Nat
  length : Nat
  entry_type : Nat
deriving DecidableEq, Repr

@[ext]
structure FrameAllocator where
  bitmap : Nat → Bool
  total_frames : Nat
  used_frames : Nat
  regions : List MemoryRegion
  hhdm_offset : Nat

/-- `FrameAllocator::new()`: zeroed bitmap, no regions. -/
def FrameAllocator.new : FrameAllocator :=
  { bitmap := fun _ => false
    total_frames := 0
    used_frames := 0
    regions := []
    hhdm_offset := 0 }

/-- One iteration of the loop in `FrameAllocator::init`. -/
def FrameAllocator.initStep (a : FrameAllocator) (entry : LimineMemoryMapEntry) :
    FrameAllocator :=
  if entry.entry_type = LIMINE_MEMMAP_USABLE ∧ a.regions.length < MAX_REGIONS then
    { a with
      regions := a.regions ++ [⟨entry.base, entry.length / FRAME_SIZE⟩]
      total_frames := a.total_frames + entry.length / FRAME_SIZE }
  else a

/-- `FrameAllocator::init(memory_map, hhdm_offset)`. -/
def FrameAllocator.init (a : FrameAllocator) (memory_map : List LimineMemoryMapEntry)
    (hhdm_offset : Nat) : FrameAllocator :=
  memory_map.foldl FrameAllocator.initStep { a with hhdm_offset := hhdm_offset }

/-- The region walk of `frame_index_to_phys`: the source keeps a running
`offset` and checks `index < offset + frame_count`; since the loop is only
reached with `index ≥ offset`, carrying the relative index
`index - offset` is the same computation. -/
def frameIndexToPhysAux : List MemoryRegion → Nat → Option Nat
  | [], _ => none
  | r :: rs, index =>
    if index < r.frame_count then some (r.base + index * FRAME_SIZE)
    else frameIndexToPhysAux rs (index - r.frame_count)

/-- `FrameAllocator::frame_index_to_phys`. -/
def FrameAllocator.frame_index_to_phys (a : FrameAllocator) (index : Nat) : Option Nat :=
  frameIndexToPhysAux a.regions index

/-- The region walk of `phys_to_frame_index`, with its running `offset`. -/
def physToFrameIndexAux : List MemoryRegion → Nat → Nat → Option Nat
  | [], _, _ => none
  | r :: rs, offset, phys_addr =>
    if r.base ≤ phys_addr ∧ phys_addr < r.base + r.frame_count * FRAME_SIZE then
      some (offset + (phys_addr - r.base) / FRAME_SIZE)
    else physToFrameIndexAux rs (offset + r.frame_count) phys_addr

/-- `FrameAllocator::phys_to_frame_index`. -/
def FrameAllocator.phys_to_frame_index (a : FrameAllocator) (phys_addr : Nat) : Option Nat :=
  physToFrameIndexAux a.regions 0 phys_addr

/-- `bitmap[i / 8] |= 1 << (i % 8)` on the bit-function view. -/
def setBit (bm : Nat → Bool) (i : Nat) : Nat → Bool :=
  fun j => if j = i then true else bm j

/-- `bitmap[i / 8] &= !(1 << (i % 8))` on the bit-function view. -/
def clearBit (bm : Nat → Bool) (i : Nat) : Nat → Bool :=
  fun j => if j = i then false else bm j

/-- Effect of the marking loop in `allocate_contiguous_frames`
(`for i in 0..count { set bit (start + i) }`). -/
def setRange (bm : Nat → Bool) (start cnt : Nat) : Nat → Bool :=
  fun j => if start ≤ j ∧ j < start + cnt then true else bm j

/-- The scan loop of `allocate_frame`: starting at index `i` with `fuel`
indices left to look at, return the first index whose bit is clear. -/
def scanClear (bm : Nat → Bool) : Nat → Nat → Option Nat
  | _, 0 => none
  | i, fuel + 1 => if bm i = false then some i else scanClear bm (i + 1) fuel

/-- `FrameAllocator::allocate_frame`. -/
def FrameAllocator.allocate_frame (a : FrameAllocator) : Option Nat × FrameAllocator :=
  match scanClear a.bitmap 0 a.total_frames with
  | some frame_index =>
    (a.frame_index_to_phys frame_index,
     { a with
       bitmap := setBit a.bitmap frame_index
       used_frames := a.used_frames + 1 })
  | none => (none, a)

/-- The inner run-search loop of `allocate_contiguous_frames`, carrying
`run_start` and `run_len` over the region-local indices `fs`. -/
def findRunGo (bm : Nat → Bool) (region_start_index count : Nat) :
    List Nat → Nat → Nat → Option Nat
  | [], _, _ => none
  | f :: fs, run_start, run_len =>
    if bm (region_start_index + f) = false then
      let rs := if run_len = 0 then f else run_start
      if run_len + 1 = count then some rs
      else findRunGo bm region_start_index count fs rs (run_len + 1)
    else findRunGo bm region_start_index count fs run_start 0

/-- The outer region loop of `allocate_contiguous_frames`; returns the
global base frame index and the physical address of a found run. -/
def allocContigAux (bm : Nat → Bool) (count : Nat) :
    List MemoryRegion → Nat → Option (Nat × Nat)
  | [], _ => none
  | r :: rs, region_start_index =>
    match (if count ≤ r.frame_count then
            findRunGo bm region_start_index count (List.range r.frame_count) 0 0
          else none) with
    | some run_start =>
      some (region_start_index + run_start, r.base + run_start * FRAME_SIZE)
    | none => allocContigAux bm count rs (region_start_index + r.frame_count)

/-- `FrameAllocator::allocate_contiguous_frames`. -/
def FrameAllocator.allocate_contiguous_frames (a : FrameAllocator) (count : Nat) :
    Option Nat × FrameAllocator :=
  if count = 0 then (none, a)
  else
    match allocContigAux a.bitmap count a.regions 0 with
    | some (base_frame_index, phys) =>
      (some phys,
       { a with
         bitmap := setRange a.bitmap base_frame_index count
         used_frames := a.used_frames + count })
    | none => (none, a)

/-- `FrameAllocator::deallocate_frame`. -/
def FrameAllocator.deallocate_frame (a : FrameAllocator) (phys_addr : Nat) :
    FrameAllocator :=
  match a.phys_to_frame_index phys_addr with
  | none => a
  | some frame_index =>
    if a.bitmap frame_index = true then
      { a with
        bitmap := clearBit a.bitmap frame_index
        used_frames := a.used_frames - 1 }
    else a

/-! ### Derived notions used by the claims -/

/-- Population count of the bitmap on `[0, n)`. -/
def countSet (bm : Nat → Bool) : Nat → Nat
  | 0 => 0
  | n + 1 => countSet bm n + (if bm n then 1 else 0)

/-- Sum of the regions' frame counts. -/
def sumRegions : List MemoryRegion → Nat
  | [] => 0
  | r :: rs => r.frame_count + sumRegions rs

/-- Global frame index at which region number `j` starts. -/
def regionStart (rs : List MemoryRegion) (j : Nat) : Nat :=
  sumRegions (rs.take j)

/-- Region `j` holds a run of `n` frames starting at region-local index `s`,
all of which are free in `a`. -/
def regionFreeRun (a : FrameAllocator) (j s n : Nat) : Prop :=
  s + n ≤ (a.regions.getD j ⟨0, 0⟩).frame_count ∧
    ∀ i, i < n → a.bitmap (regionStart a.regions j + s + i) = false

/-- The allocator invariant of the spec: `used_frames` is the popcount on
`[0, total_frames)` and `total_frames` is the sum of the regions. -/
def FrameAllocator.inv (a : FrameAllocator) : Prop :=
  a.used_frames = countSet a.bitmap a.total_frames ∧
    a.total_frames = sumRegions a.regions

/-- A call against the public allocator API. -/
inductive AllocOp where
  | alloc : AllocOp
  | allocContig : Nat → AllocOp
  | dealloc : Nat → AllocOp
deriving DecidableEq, Repr

def applyOp (a : FrameAllocator) : AllocOp → FrameAllocator
  | .alloc => a.allocate_frame.2
  | .allocContig n => (a.allocate_contiguous_frames n).2
  | .dealloc p => a.deallocate_frame p

def runOps (a : FrameAllocator) (ops : List AllocOp) : FrameAllocator :=
  ops.foldl applyOp a

/-- `n` single-frame allocations in a row. -/
def iterAlloc (a : FrameAllocator) : Nat → FrameAllocator
  | 0 => a
  | n + 1 => (iterAlloc a n).allocate_frame.2

/-! ### Segment table, from gdt.rs -/

structure GdtEntry where
  limit_low : Nat
  base_low : Nat
  base_mid : Nat
  access : Nat
  granularity : Nat
  base_high : Nat
deriving DecidableEq, Repr

def GdtEntry.null : GdtEntry :=
  { limit_low := 0, base_low := 0, base_mid := 0, access := 0
    granularity := 0, base_high := 0 }

def GdtEntry.new (access flags : Nat) : GdtEntry :=
  { limit_low := 0, base_low := 0, base_mid := 0, access := access
    granularity := flags, base_high := 0 }

def PRESENT : Nat := 1 <<< 7

def DPL_0 : Nat := 0 <<< 5

def DPL_3 : Nat := 3 <<< 5

def DESCRIPTOR_TYPE : Nat := 1 <<< 4

def EXECUTABLE : Nat := 1 <<< 3

def RW : Nat := 1 <<< 1

def GRANULARITY : Nat := 1 <<< 7

def LONG_MODE : Nat := 1 <<< 5

def KERNEL_CODE_SELECTOR : Nat := 0x28

def KERNEL_DATA_SELECTOR : Nat := 0x30

structure Gdt where
  table : List GdtEntry

/-- `Gdt::new()`: the fixed nine-entry table (Limine selector layout). -/
def Gdt.new : Gdt :=
  { table :=
    [ GdtEntry.null
    , GdtEntry.null
    , GdtEntry.null
    , GdtEntry.null
    , GdtEntry.null
    , GdtEntry.new (PRESENT ||| DPL_0 ||| DESCRIPTOR_TYPE ||| EXECUTABLE ||| RW)
        (GRANULARITY ||| LONG_MODE)
    , GdtEntry.new (PRESENT ||| DPL_0 ||| DESCRIPTOR_TYPE ||| RW) GRANULARITY
    , GdtEntry.new (PRESENT ||| DPL_3 ||| DESCRIPTOR_TYPE ||| EXECUTABLE ||| RW)
        (GRANULARITY ||| LONG_MODE)
    , GdtEntry.new (PRESENT ||| DPL_3 ||| DESCRIPTOR_TYPE ||| RW) GRANULARITY ] }

/-! ### Interrupt table, from idt.rs -/

structure IdtEntry where
  offset_low : Nat
  selector : Nat
  ist : Nat
  type_attr : Nat
  offset_mid : Nat
  offset_high : Nat
  reserved : Nat
deriving DecidableEq, Repr

def IdtEntry.null : IdtEntry :=
  { offset_low := 0, selector := 0, ist := 0, type_attr := 0
    offset_mid := 0, offset_high := 0, reserved := 0 }

/-- `IdtEntry::new(handler)`, with the source's literal field values. -/
def IdtEntry.new (handler : Nat) : IdtEntry :=
  { offset_low := handler &&& 0xFFFF
    selector := 0x08
    ist := 0
    type_attr := 0x8E
    offset_mid := (handler >>> 16) &&& 0xFFFF
    offset_high := (handler >>> 32) &&& 0xFFFFFFFF
    reserved := 0 }

def IDT_ENTRIES : Nat := 256

structure Idt where
  entries : List IdtEntry

def Idt.new : Idt :=
  { entries := List.replicate IDT_ENTRIES IdtEntry.null }

/-- `Idt::set_handler(index, handler)` (`index` is a `u8`, so in-range). -/
def Idt.set_handler (t : Idt) (index : Nat) (handler : Nat) : Idt :=
  { entries := t.entries.set index (IdtEntry.new handler) }

/-! ### PIC end-of-interrupt, from pic/mod.rs

`send_eoi` only performs port output; it is modelled as the list of
`(port, value)` writes it issues, in order. -/

def PIC1_COMMAND : Nat := 0x20

def PIC2_COMMAND : Nat := 0xA0

def PIC_EOI : Nat := 0x20

/-- `send_eoi(irq)` as its ordered trace of `outb` writes. -/
def send_eoi (irq : Nat) : List (Nat × Nat) :=
  (if 8 ≤ irq then [(PIC2_COMMAND, PIC_EOI)] else []) ++ [(PIC1_COMMAND, PIC_EOI)]

/-! ### Spin lock, from sync/spinlock.rs

Two independent execution contexts race on one `Spinlock`.  A successful
`compare_exchange(false, true)` inside `lock()` is one atomic step that
observes `locked = false` and sets it, making the caller the holder; a
failed attempt changes nothing (the spin iteration) and so needs no
transition.  `SpinlockGuard::drop` is one atomic step storing `false`. -/

inductive CtxState where
  | idle : CtxState
  | holding : CtxState
deriving DecidableEq, Repr

structure LockSys where
  locked : Bool
  ctx1 : CtxState
  ctx2 : CtxState
deriving DecidableEq, Repr

def LockSys.start : LockSys :=
  { locked := false, ctx1 := .idle, ctx2 := .idle }

inductive LockStep : LockSys → LockSys → Prop where
  | acquire1 (s : LockSys) (hfree : s.locked = false) (hidle : s.ctx1 = .idle) :
    LockStep s { locked := true, ctx1 := .holding, ctx2 := s.ctx2 }
  | acquire2 (s : LockSys) (hfree : s.locked = false) (hidle : s.ctx2 = .idle) :
    LockStep s { locked := true, ctx1 := s.ctx1, ctx2 := .holding }
  | release1 (s : LockSys) (hheld : s.ctx1 = .holding) :
    LockStep s { locked := false, ctx1 := .idle, ctx2 := s.ctx2 }
  | release2 (s : LockSys) (hheld : s.ctx2 = .holding) :
    LockStep s { locked := false, ctx1 := s.ctx1, ctx2 := .idle }

inductive LockReach : LockSys → Prop where
  | start : LockReach LockSys.start
  | step {s t : LockSys} : LockReach s → LockStep s t → LockReach t

/-- Loop invariant carried by `findRunGo`: a positive `run_len` means the
current run covers exactly the `run_len` indices before `f`, all clear. -/
def RunInv (bm : Nat → Bool) (rstart f run_start run_len : Nat) : Prop :=
  0 < run_len → run_start + run_len = f ∧
    ∀ i, i < run_len → bm (rstart + run_start + i) = false

/-- Safety invariant of the two-context lock system: a holder implies the
flag is set, and the two contexts never hold simultaneously. -/
def LockInv (s : LockSys) : Prop :=
  ((s.ctx1 = .holding ∨ s.ctx2 = .holding) → s.locked = true) ∧
    ¬(s.ctx1 = .holding ∧ s.ctx2 = .holding)

/-! ### Concrete states used to instantiate the theorems -/

/-- A fresh two-region allocator: 10 frames at 0x1000, 3 frames at 0xF000. -/
def exTwoRegion : FrameAllocator :=
  { bitmap := fun _ => false
    total_frames := 13
    used_frames := 0
    regions := [⟨0x1000, 10⟩, ⟨0xF000, 3⟩]
    hhdm_offset := 0 }

/-- A fresh one-region allocator: 2 frames at 0x1000. -/
def exOneRegion : FrameAllocator :=
  { bitmap := fun _ => false
    total_frames := 2
    used_frames := 0
    regions := [⟨0x1000, 2⟩]
    hhdm_offset := 0 }

/-- The one-region allocator with frame 0 allocated. -/
def exOneRegionUsed : FrameAllocator :=
  { bitmap := fun i => decide (i = 0)
    total_frames := 2
    used_frames := 1
    regions := [⟨0x1000, 2⟩]
    hhdm_offset := 0 }

/-- The memory map of the two-region scenario in the spec: region A at
0x100000 spanning 0x400000 bytes, region B at 0x800000 spanning 0x100000
bytes, both usable. -/
def exBootMap : List LimineMemoryMapEntry :=
  [⟨0x100000, 0x400000, 0⟩, ⟨0x800000, 0x100000, 0⟩]

/-- The allocator produced by `init` from that memory map. -/
def exBootAlloc : FrameAllocator :=
  FrameAllocator.new.init exBootMap 0xFFFF800000000000

/-! ### Helper lemmas: the first-fit scan -/

theorem scanClear_none_iff (bm : Nat → Bool) :
    ∀ fuel i, scanClear bm i fuel = none ↔ ∀ j, i ≤ j → j < i + fuel → bm j = true := by
  intro fuel
  induction fuel with
  | zero =>
    intro i
    simp only [scanClear]
    constructor
    · intro _ j hj1 hj2; omega
    · intro _; trivial
  | succ n ih =>
    intro i
    by_cases hb : bm i = false
    · simp only [scanClear, hb, if_pos]
      constructor
      · intro h; exact absurd h (by simp)
      · intro h
        have := h i (le_refl i) (by omega)
        rw [this] at hb; exact absurd hb (by simp)
    · have hb' : bm i = true := by
        cases h : bm i with
        | false => exact absurd h hb
        | true => rfl
      simp only [scanClear, hb', Bool.true_eq_false, if_false]
      rw [ih (i + 1)]
      constructor
      · intro h j hj1 hj2
        rcases Nat.eq_or_lt_of_le hj1 with heq | hlt
        · rw [← heq]; exact hb'
        · exact h j hlt (by omega)
      · intro h j hj1 hj2
        exact h j (by omega) (by omega)

theorem scanClear_some_spec (bm : Nat → Bool) :
    ∀ fuel i idx, scanClear bm i fuel = some idx →
      i ≤ idx ∧ idx < i + fuel ∧ bm idx = false ∧
        ∀ j, i ≤ j → j < idx → bm j = true := by
  intro fuel
  induction fuel with
  | zero => intro i idx h; simp [scanClear] at h
  | succ n ih =>
    intro i idx h
    by_cases hb : bm i = false
    · simp only [scanClear, hb, if_pos, Option.some.injEq] at h
      subst h
      exact ⟨le_refl i, by omega, hb, fun j hj1 hj2 => by omega⟩
    · have hb' : bm i = true := by
        cases hx : bm i with
        | false => exact absurd hx hb
        | true => rfl
      simp only [scanClear, hb', Bool.true_eq_false, if_false] at h
      obtain ⟨h1, h2, h3, h4⟩ := ih (i + 1) idx h
      refine ⟨by omega, by omega, h3, fun j hj1 hj2 => ?_⟩
      rcases Nat.eq_or_lt_of_le hj1 with heq | hlt
      · rw [← heq]; exact hb'
      · exact h4 j hlt hj2

theorem scanClear_eq_some (bm : Nat → Bool) :
    ∀ fuel i idx, i ≤ idx → idx < i + fuel → bm idx = false →
      (∀ j, i ≤ j → j < idx → bm j = true) → scanClear bm i fuel = some idx := by
  intro fuel
  induction fuel with
  | zero => intro i idx h1 h2; omega
  | succ n ih =>
    intro i idx h1 h2 h3 h4
    rcases Nat.eq_or_lt_of_le h1 with heq | hlt
    · subst heq; simp [scanClear, h3]
    · have hb : bm i = true := h4 i (le_refl i) hlt
      simp only [scanClear, hb, Bool.true_eq_false, if_false]
      exact ih (i + 1) idx hlt (by omega) h3 (fun j hj1 hj2 => h4 j (by omega) hj2)

/-! ### Helper lemmas: population count -/

theorem countSet_congr (bm1 bm2 : Nat → Bool) :
    ∀ n, (∀ j, j < n → bm1 j = bm2 j) → countSet bm1 n = countSet bm2 n := by
  intro n
  induction n with
  | zero => intro _; rfl
  | succ m ih =>
    intro h
    simp only [countSet]
    rw [ih (fun j hj => h j (by omega)), h m (by omega)]

theorem countSet_false (n : Nat) : countSet (fun _ => false) n = 0 := by
  induction n with
  | zero => rfl
  | succ m ih => simp [countSet, ih]

theorem countSet_setBit (bm : Nat → Bool) (idx : Nat) :
    ∀ n, idx < n → bm idx = false →
      countSet (setBit bm idx) n = countSet bm n + 1 := by
  intro n
  induction n with
  | zero => intro h; omega
  | succ m ih =>
    intro hlt hfalse
    simp only [countSet]
    by_cases hm : idx = m
    · subst hm
      have h1 : countSet (setBit bm idx) idx = countSet bm idx :=
        countSet_congr _ _ idx (fun j hj => by simp [setBit]; omega)
      simp [h1, setBit, hfalse]
    · have h2 : setBit bm idx m = bm m := by simp [setBit]; omega
      rw [ih (by omega) hfalse, h2]
      omega

theorem countSet_clearBit (bm : Nat → Bool) (idx : Nat) :
    ∀ n, idx < n → bm idx = true →
      countSet (clearBit bm idx) n + 1 = countSet bm n := by
  intro n
  induction n with
  | zero => intro h; omega
  | succ m ih =>
    intro hlt htrue
    simp only [countSet]
    by_cases hm : idx = m
    · subst hm
      have h1 : countSet (clearBit bm idx) idx = countSet bm idx :=
        countSet_congr _ _ idx (fun j hj => by simp [clearBit]; omega)
      simp [h1, clearBit, htrue]
    · have h2 : clearBit bm idx m = bm m := by simp [clearBit]; omega
      rw [← ih (by omega) htrue, h2]
      omega

theorem setRange_zero_eq (bm : Nat → Bool) (start : Nat) (j : Nat) :
    setRange bm start 0 j = bm j := by
  simp [setRange]

theorem countSet_setRange (bm : Nat → Bool) (start : Nat) :
    ∀ cnt n, start + cnt ≤ n → (∀ i, i < cnt → bm (start + i) = false) →
      countSet (setRange bm start cnt) n = countSet bm n + cnt := by
  intro cnt
  induction cnt with
  | zero =>
    intro n _ _
    exact countSet_congr _ _ n (fun j _ => setRange_zero_eq bm start j)
  | succ m ih =>
    intro n hle hfree
    have hstep : ∀ j, setRange bm start (m + 1) j = setBit (setRange bm start m) (start + m) j := by
      intro j
      simp only [setRange, setBit]
      by_cases hj : j = start + m
      · subst hj; simp
      · by_cases hin : start ≤ j ∧ j < start + (m + 1)
        · have hin' : start ≤ j ∧ j < start + m := by omega
          simp [hin, hin', hj]
        · have hin' : ¬(start ≤ j ∧ j < start + m) := by omega
          simp [hin, hin', hj]
    rw [countSet_congr _ _ n (fun j _ => hstep j)]
    have hfree' : setRange bm start m (start + m) = false := by
      have : ¬(start ≤ start + m ∧ start + m < start + m) := by omega
      simp only [setRange, if_neg this]
      exact hfree m (by omega)
    rw [countSet_setBit _ _ n (by omega) hfree']
    rw [ih n (by omega) (fun i hi => hfree i (by omega))]
    omega

/-! ### Helper lemmas: regions and the reverse map -/

theorem sumRegions_append (rs1 rs2 : List MemoryRegion) :
    sumRegions (rs1 ++ rs2) = sumRegions rs1 + sumRegions rs2 := by
  induction rs1 with
  | nil => simp [sumRegions]
  | cons r rs ih => simp [sumRegions, ih]; omega

theorem regionStart_add_le (rs : List MemoryRegion) :
    ∀ j, j < rs.length →
      regionStart rs j + (rs.getD j ⟨0, 0⟩).frame_count ≤ sumRegions rs := by
  induction rs with
  | nil => intro j hj; simp at hj
  | cons r rest ih =>
    intro j hj
    cases j with
    | zero => simp [regionStart, sumRegions]
    | succ m =>
      have := ih m (by simpa using hj)
      simp only [regionStart, List.take, sumRegions, List.getD_cons_succ] at *
      omega

theorem physToFrameIndexAux_none_iff (p : Nat) :
    ∀ rs offset, physToFrameIndexAux rs offset p = none ↔
      ∀ r, r ∈ rs → ¬(r.base ≤ p ∧ p < r.base + r.frame_count * FRAME_SIZE) := by
  intro rs
  induction rs with
  | nil => intro offset; simp [physToFrameIndexAux]
  | cons r rest ih =>
    intro offset
    by_cases hin : r.base ≤ p ∧ p < r.base + r.frame_count * FRAME_SIZE
    · simp only [physToFrameIndexAux, if_pos hin]
      constructor
      · intro h; exact absurd h (by simp)
      · intro h; exact absurd hin (h r (List.mem_cons_self r rest))
    · simp only [physToFrameIndexAux, if_neg hin]
      rw [ih (offset + r.frame_count)]
      constructor
      · intro h s hs
        rcases List.mem_cons.mp hs with heq | hmem
        · rw [heq]; exact hin
        · exact h s hmem
      · intro h s hs
        exact h s (List.mem_cons_of_mem r hs)

theorem physToFrameIndexAux_lt (p : Nat) :
    ∀ rs offset idx, physToFrameIndexAux rs offset p = some idx →
      idx < offset + sumRegions rs := by
  intro rs
  induction rs with
  | nil => intro offset idx h; simp [physToFrameIndexAux] at h
  | cons r rest ih =>
    intro offset idx h
    by_cases hin : r.base ≤ p ∧ p < r.base + r.frame_count * FRAME_SIZE
    · simp only [physToFrameIndexAux, if_pos hin, Option.some.injEq] at h
      subst h
      have hdiv : (p - r.base) / FRAME_SIZE < r.frame_count := by
        rw [Nat.div_lt_iff_lt_mul (by norm_num [FRAME_SIZE])]
        have : FRAME_SIZE = 4096 := rfl
        omega
      simp only [sumRegions]
      omega
    · simp only [physToFrameIndexAux, if_neg hin] at h
      have := ih (offset + r.frame_count) idx h
      simp only [sumRegions]
      omega

/-! ### Helper lemmas: the contiguous-run search -/

theorem runInv_extend (bm : Nat → Bool) (rstart f run_start run_len : Nat)
    (hinv : RunInv bm rstart f run_start run_len)
    (hb : bm (rstart + f) = false) :
    RunInv bm rstart (f + 1) (if run_len = 0 then f else run_start) (run_len + 1) := by
  intro _
  by_cases h0 : run_len = 0
  · subst h0
    simp only [if_pos rfl]
    exact ⟨rfl, fun i hi => by interval_cases i; simpa using hb⟩
  · obtain ⟨heq, hclear⟩ := hinv (by omega)
    simp only [if_neg h0]
    refine ⟨by omega, fun i hi => ?_⟩
    rcases Nat.lt_or_ge i run_len with hlt | hge
    · exact hclear i hlt
    · have hieq : i = run_len := by omega
      rw [hieq, show rstart + run_start + run_len = rstart + f by omega]
      exact hb

theorem findRunGo_sound (bm : Nat → Bool) (rstart cnt : Nat) :
    ∀ k f run_start run_len s,
      RunInv bm rstart f run_start run_len →
      run_len < cnt →
      findRunGo bm rstart cnt (List.range' f k) run_start run_len = some s →
      s + cnt ≤ f + k ∧ ∀ i, i < cnt → bm (rstart + s + i) = false := by
  intro k
  induction k with
  | zero => intro f rs rl s _ _ h; simp [findRunGo] at h
  | succ m ih =>
    intro f rs rl s hinv hlt h
    rw [List.range'_succ] at h
    by_cases hb : bm (rstart + f) = false
    · simp only [findRunGo, hb, if_pos] at h
      by_cases hc : rl + 1 = cnt
      · rw [if_pos hc] at h
        have hs : s = if rl = 0 then f else rs := by
          exact (Option.some.injEq _ _).mp h.symm
        have hinv' := runInv_extend bm rstart f rs rl hinv hb
        rw [← hs] at hinv'
        obtain ⟨heq, hclear⟩ := hinv' (by omega)
        rw [← hc]
        exact ⟨by omega, fun i hi => hclear i (by omega)⟩
      · rw [if_neg hc] at h
        have hinv' := runInv_extend bm rstart f rs rl hinv hb
        obtain ⟨h1, h2⟩ := ih (f + 1) _ (rl + 1) s hinv' (by omega) h
        exact ⟨by omega, h2⟩
    · have hb' : bm (rstart + f) = true := by
        cases hx : bm (rstart + f) with
        | false => exact absurd hx hb
        | true => rfl
      simp only [findRunGo, hb', Bool.true_eq_false, if_false] at h
      obtain ⟨h1, h2⟩ := ih (f + 1) rs 0 s (by intro h0; omega) (by omega) h
      exact ⟨by omega, h2⟩

theorem findRunGo_complete (bm : Nat → Bool) (rstart cnt : Nat) :
    ∀ k f run_start run_len,
      RunInv bm rstart f run_start run_len →
      run_len < cnt →
      findRunGo bm rstart cnt (List.range' f k) run_start run_len = none →
      ∀ s, f ≤ s + run_len → s + cnt ≤ f + k →
        ∃ i, i < cnt ∧ bm (rstart + s + i) = true := by
  intro k
  induction k with
  | zero =>
    intro f rs rl _ hlt _ s hs1 hs2
    exfalso; omega
  | succ m ih =>
    intro f rs rl hinv hlt h s hs1 hs2
    rw [List.range'_succ] at h
    by_cases hb : bm (rstart + f) = false
    · simp only [findRunGo, hb, if_pos] at h
      by_cases hc : rl + 1 = cnt
      · rw [if_pos hc] at h
        exact absurd h (by simp)
      · rw [if_neg hc] at h
        have hinv' := runInv_extend bm rstart f rs rl hinv hb
        exact ih (f + 1) _ (rl + 1) hinv' (by omega) h s (by omega) (by omega)
    · have hb' : bm (rstart + f) = true := by
        cases hx : bm (rstart + f) with
        | false => exact absurd hx hb
        | true => rfl
      simp only [findRunGo, hb', Bool.true_eq_false, if_false] at h
      rcases Nat.lt_or_ge s (f + 1) with hsf | hsf
      · rcases Nat.lt_or_ge f (s + cnt) with hfc | hfc
        · refine ⟨f - s, by omega, ?_⟩
          rw [show rstart + s + (f - s) = rstart + f by omega]
          exact hb'
        · exfalso; omega
      · exact ih (f + 1) rs 0 (by intro h0; omega) (by omega) h s (by omega) (by omega)

theorem allocContigAux_sound (bm : Nat → Bool) (cnt : Nat) (hcnt : 0 < cnt) :
    ∀ rs rsi bfi phys, allocContigAux bm cnt rs rsi = some (bfi, phys) →
      ∃ j, j < rs.length ∧ ∃ s,
        cnt ≤ (rs.getD j ⟨0, 0⟩).frame_count ∧
        s + cnt ≤ (rs.getD j ⟨0, 0⟩).frame_count ∧
        bfi = rsi + sumRegions (rs.take j) + s ∧
        phys = (rs.getD j ⟨0, 0⟩).base + s * FRAME_SIZE ∧
        ∀ i, i < cnt → bm (bfi + i) = false := by
  intro rs
  induction rs with
  | nil => intro rsi bfi phys h; simp [allocContigAux] at h
  | cons r rest ih =>
    intro rsi bfi phys h
    simp only [allocContigAux] at h
    by_cases hfc : cnt ≤ r.frame_count
    · rw [if_pos hfc] at h
      cases hrun : findRunGo bm rsi cnt (List.range r.frame_count) 0 0 with
      | some s0 =>
        rw [hrun] at h
        simp only [Option.some.injEq, Prod.mk.injEq] at h
        obtain ⟨hbfi, hphys⟩ := h
        rw [List.range_eq_range'] at hrun
        obtain ⟨hrange, hclear⟩ :=
          findRunGo_sound bm rsi cnt r.frame_count 0 0 0 s0 (by intro h0; omega) hcnt hrun
        refine ⟨0, by simp, s0, by simpa using hfc, by simp only [List.getD_cons_zero]; omega,
          ?_, ?_, ?_⟩
        · simp [← hbfi, sumRegions]
        · simpa using hphys.symm
        · intro i hi
          rw [← hbfi]
          have := hclear i hi
          rw [show rsi + s0 + i = rsi + s0 + i from rfl] at this
          exact this
      | none =>
        rw [hrun] at h
        simp only at h
        obtain ⟨j, hj, s, h1, h2, h3, h4, h5⟩ := ih (rsi + r.frame_count) bfi phys h
        refine ⟨j + 1, by simpa using hj, s, ?_, ?_, ?_, ?_, h5⟩
        · simpa using h1
        · simpa using h2
        · simp only [List.take_succ_cons, sumRegions]
          omega
        · simpa using h4
    · rw [if_neg hfc] at h
      simp only at h
      obtain ⟨j, hj, s, h1, h2, h3, h4, h5⟩ := ih (rsi + r.frame_count) bfi phys h
      refine ⟨j + 1, by simpa using hj, s, by simpa using h1, by simpa using h2, ?_,
        by simpa using h4, h5⟩
      simp only [List.take_succ_cons, sumRegions]
      omega

theorem allocContigAux_complete (bm : Nat → Bool) (cnt : Nat) (hcnt : 0 < cnt) :
    ∀ rs rsi, allocContigAux bm cnt rs rsi = none →
      ∀ j, j < rs.length → ∀ s, s + cnt ≤ (rs.getD j ⟨0, 0⟩).frame_count →
        ∃ i, i < cnt ∧ bm (rsi + sumRegions (rs.take j) + s + i) = true := by
  intro rs
  induction rs with
  | nil => intro rsi _ j hj; simp at hj
  | cons r rest ih =>
    intro rsi h j hj s hs
    simp only [allocContigAux] at h
    by_cases hfc : cnt ≤ r.frame_count
    · rw [if_pos hfc] at h
      cases hrun : findRunGo bm rsi cnt (List.range r.frame_count) 0 0 with
      | some s0 => rw [hrun] at h; simp at h
      | none =>
        rw [hrun] at h
        simp only at h
        cases j with
        | zero =>
          rw [List.range_eq_range'] at hrun
          have := findRunGo_complete bm rsi cnt r.frame_count 0 0 0
            (by intro h0; omega) hcnt hrun s (by omega) (by simpa using hs)
          obtain ⟨i, hi, hbit⟩ := this
          refine ⟨i, hi, ?_⟩
          simpa [sumRegions] using hbit
        | succ m =>
          have := ih (rsi + r.frame_count) h m (by simpa using hj) s (by simpa using hs)
          obtain ⟨i, hi, hbit⟩ := this
          refine ⟨i, hi, ?_⟩
          rw [show rsi + sumRegions ((r :: rest).take (m + 1)) + s + i =
            rsi + r.frame_count + sumRegions (rest.take m) + s + i by
              simp only [List.take_succ_cons, sumRegions]; omega]
          exact hbit
    · rw [if_neg hfc] at h
      simp only at h
      cases j with
      | zero =>
        exfalso
        simp only [List.getD_cons_zero] at hs
        omega
      | succ m =>
        have := ih (rsi + r.frame_count) h m (by simpa using hj) s (by simpa using hs)
        obtain ⟨i, hi, hbit⟩ := this
        refine ⟨i, hi, ?_⟩
        rw [show rsi + sumRegions ((r :: rest).take (m + 1)) + s + i =
          rsi + r.frame_count + sumRegions (rest.take m) + s + i by
            simp only [List.take_succ_cons, sumRegions]; omega]
        exact hbit

/-! ### Helper lemmas: invariant preservation -/

theorem allocate_frame_preserves (a : FrameAllocator) (hinv : a.inv) :
    a.allocate_frame.2.inv ∧ a.allocate_frame.2.regions = a.regions ∧
      a.allocate_frame.2.total_frames = a.total_frames := by
  obtain ⟨hused, htot⟩ := hinv
  cases hscan : scanClear a.bitmap 0 a.total_frames with
  | none =>
    simp only [FrameAllocator.allocate_frame, hscan]
    exact ⟨⟨hused, htot⟩, by trivial, by trivial⟩
  | some idx =>
    obtain ⟨_, hlt, hfalse, _⟩ := scanClear_some_spec a.bitmap a.total_frames 0 idx hscan
    simp only [FrameAllocator.allocate_frame, hscan]
    refine ⟨⟨?_, htot⟩, by trivial, by trivial⟩
    show a.used_frames + 1 = countSet (setBit a.bitmap idx) a.total_frames
    rw [countSet_setBit a.bitmap idx a.total_frames (by omega) hfalse]
    omega

theorem allocate_contiguous_preserves (a : FrameAllocator) (n : Nat) (hinv : a.inv) :
    (a.allocate_contiguous_frames n).2.inv ∧
      (a.allocate_contiguous_frames n).2.regions = a.regions ∧
      (a.allocate_contiguous_frames n).2.total_frames = a.total_frames := by
  obtain ⟨hused, htot⟩ := hinv
  by_cases hn : n = 0
  · subst hn
    rw [show a.allocate_contiguous_frames 0 = (none, a) from rfl]
    exact ⟨⟨hused, htot⟩, by trivial, by trivial⟩
  · simp only [FrameAllocator.allocate_contiguous_frames, if_neg hn]
    cases hrun : allocContigAux a.bitmap n a.regions 0 with
    | none => exact ⟨⟨hused, htot⟩, by trivial, by trivial⟩
    | some pr =>
      obtain ⟨bfi, phys⟩ := pr
      obtain ⟨j, hj, s, hc1, hc2, hbfi, hphys, hclear⟩ :=
        allocContigAux_sound a.bitmap n (by omega) a.regions 0 bfi phys hrun
      have hbound : bfi + n ≤ a.total_frames := by
        have := regionStart_add_le a.regions j hj
        rw [htot]
        simp only [regionStart] at this
        omega
      refine ⟨⟨?_, htot⟩, by trivial, by trivial⟩
      show a.used_frames + n = countSet (setRange a.bitmap bfi n) a.total_frames
      rw [countSet_setRange a.bitmap bfi n a.total_frames hbound hclear]
      omega

theorem deallocate_frame_preserves (a : FrameAllocator) (p : Nat) (hinv : a.inv) :
    (a.deallocate_frame p).inv ∧ (a.deallocate_frame p).regions = a.regions ∧
      (a.deallocate_frame p).total_frames = a.total_frames := by
  obtain ⟨hused, htot⟩ := hinv
  cases hidx : a.phys_to_frame_index p with
  | none =>
    simp only [FrameAllocator.deallocate_frame, hidx]
    exact ⟨⟨hused, htot⟩, by trivial, by trivial⟩
  | some idx =>
    have hlt : idx < a.total_frames := by
      have := physToFrameIndexAux_lt p a.regions 0 idx hidx
      omega
    cases hbit : a.bitmap idx with
    | false =>
      simp only [FrameAllocator.deallocate_frame, hidx, hbit, Bool.false_eq_true, if_false]
      exact ⟨⟨hused, htot⟩, by trivial, by trivial⟩
    | true =>
      simp only [FrameAllocator.deallocate_frame, hidx, hbit, if_true]
      refine ⟨⟨?_, htot⟩, by trivial, by trivial⟩
      show a.used_frames - 1 = countSet (clearBit a.bitmap idx) a.total_frames
      have := countSet_clearBit a.bitmap idx a.total_frames hlt hbit
      omega

theorem applyOp_preserves (a : FrameAllocator) (op : AllocOp) (hinv : a.inv) :
    (applyOp a op).inv ∧ (applyOp a op).regions = a.regions ∧
      (applyOp a op).total_frames = a.total_frames := by
  cases op with
  | alloc => exact allocate_frame_preserves a hinv
  | allocContig n => exact allocate_contiguous_preserves a n hinv
  | dealloc p => exact deallocate_frame_preserves a p hinv

theorem runOps_preserves (ops : List AllocOp) :
    ∀ a : FrameAllocator, a.inv →
      (runOps a ops).inv ∧ (runOps a ops).regions = a.regions ∧
        (runOps a ops).total_frames = a.total_frames := by
  induction ops with
  | nil => intro a hinv; exact ⟨hinv, rfl, rfl⟩
  | cons op rest ih =>
    intro a hinv
    obtain ⟨h1, h2, h3⟩ := applyOp_preserves a op hinv
    obtain ⟨g1, g2, g3⟩ := ih (applyOp a op) h1
    exact ⟨g1, by rw [runOps, List.foldl_cons, ← runOps, g2, h2],
      by rw [runOps, List.foldl_cons, ← runOps, g3, h3]⟩

theorem initStep_preserves (a : FrameAllocator) (entry : LimineMemoryMapEntry)
    (h : a.bitmap = (fun _ => false) ∧ a.used_frames = 0 ∧
      a.total_frames = sumRegions a.regions) :
    (a.initStep entry).bitmap = (fun _ => false) ∧ (a.initStep entry).used_frames = 0 ∧
      (a.initStep entry).total_frames = sumRegions (a.initStep entry).regions := by
  obtain ⟨h1, h2, h3⟩ := h
  by_cases hc : entry.entry_type = LIMINE_MEMMAP_USABLE ∧ a.regions.length < MAX_REGIONS
  · simp only [FrameAllocator.initStep, if_pos hc]
    refine ⟨h1, h2, ?_⟩
    simp only [sumRegions_append, sumRegions]
    omega
  · simp only [FrameAllocator.initStep, if_neg hc]
    exact ⟨h1, h2, h3⟩

theorem initFold_preserves (memory_map : List LimineMemoryMapEntry) :
    ∀ a : FrameAllocator,
      a.bitmap = (fun _ => false) ∧ a.used_frames = 0 ∧
        a.total_frames = sumRegions a.regions →
      (memory_map.foldl FrameAllocator.initStep a).bitmap = (fun _ => false) ∧
        (memory_map.foldl FrameAllocator.initStep a).used_frames = 0 ∧
        (memory_map.foldl FrameAllocator.initStep a).total_frames =
          sumRegions (memory_map.foldl FrameAllocator.initStep a).regions := by
  induction memory_map with
  | nil => intro a h; simpa using h
  | cons e rest ih =>
    intro a h
    rw [List.foldl_cons]
    exact ih (a.initStep e) (initStep_preserves a e h)

theorem init_from_new (memory_map : List LimineMemoryMapEntry) (hhdm : Nat) :
    (FrameAllocator.new.init memory_map hhdm).inv ∧
      (FrameAllocator.new.init memory_map hhdm).bitmap = (fun _ => false) ∧
      (FrameAllocator.new.init memory_map hhdm).used_frames = 0 := by
  have hstart : ({ FrameAllocator.new with hhdm_offset := hhdm } : FrameAllocator).bitmap =
      (fun _ => false) ∧
      ({ FrameAllocator.new with hhdm_offset := hhdm } : FrameAllocator).used_frames = 0 ∧
      ({ FrameAllocator.new with hhdm_offset := hhdm } : FrameAllocator).total_frames =
        sumRegions ({ FrameAllocator.new with hhdm_offset := hhdm } : FrameAllocator).regions := by
    exact ⟨rfl, rfl, rfl⟩
  obtain ⟨h1, h2, h3⟩ := initFold_preserves memory_map _ hstart
  simp only [FrameAllocator.init, FrameAllocator.inv]
  refine ⟨⟨?_, h3⟩, h1, h2⟩
  rw [h1, h2, countSet_false]

/-! ### Helper lemmas: repeated single-frame allocation from a fresh state -/

theorem iterAlloc_fresh (a : FrameAllocator) (hbm : a.bitmap = fun _ => false) :
    ∀ n, n ≤ a.total_frames →
      iterAlloc a n =
        { a with bitmap := fun i => decide (i < n), used_frames := a.used_frames + n } := by
  intro n
  induction n with
  | zero =>
    intro _
    simp only [iterAlloc]
    apply FrameAllocator.ext <;> simp [hbm]
  | succ m ih =>
    intro hle
    have hm := ih (by omega)
    simp only [iterAlloc, hm]
    have hscan : scanClear (fun i => decide (i < m)) 0 a.total_frames = some m :=
      scanClear_eq_some _ _ 0 m (Nat.zero_le m) (by omega) (by simp)
        (fun j _ hj => by simp; omega)
    simp only [FrameAllocator.allocate_frame, hscan]
    apply FrameAllocator.ext
    · funext j
      show setBit (fun i => decide (i < m)) m j = decide (j < m + 1)
      by_cases hj : j = m
      · subst hj; simp [setBit]
      · simp only [setBit, if_neg hj, decide_eq_decide]
        omega
    · rfl
    · show a.used_frames + m + 1 = a.used_frames + (m + 1)
      omega
    · rfl
    · rfl

/-! ### Helper lemmas: the lock transition system -/

theorem lockStep_preserves (s t : LockSys) (hstep : LockStep s t) (hinv : LockInv s) :
    LockInv t := by
  obtain ⟨hhold, hboth⟩ := hinv
  cases hstep with
  | acquire1 hfree hidle =>
    refine ⟨fun _ => rfl, fun hb => ?_⟩
    have h2 := hhold (Or.inr hb.2)
    rw [h2] at hfree
    exact Bool.noConfusion hfree
  | acquire2 hfree hidle =>
    refine ⟨fun _ => rfl, fun hb => ?_⟩
    have h2 := hhold (Or.inl hb.1)
    rw [h2] at hfree
    exact Bool.noConfusion hfree
  | release1 hheld =>
    refine ⟨fun h => ?_, fun hb => ?_⟩
    · rcases h with h | h
      · exact absurd h (by simp)
      · exact absurd ⟨hheld, h⟩ hboth
    · exact absurd hb.1 (by simp)
  | release2 hheld =>
    refine ⟨fun h => ?_, fun hb => ?_⟩
    · rcases h with h | h
      · exact absurd ⟨h, hheld⟩ hboth
      · exact absurd h (by simp)
    · exact absurd hb.2 (by simp)

theorem lockReach_inv (s : LockSys) (hreach : LockReach s) : LockInv s := by
  induction hreach with
  | start => exact ⟨fun h => by rcases h with h | h <;> exact absurd h (by simp [LockSys.start]),
      fun ⟨h, _⟩ => absurd h (by simp [LockSys.start])⟩
  | step _ hstep ih => exact lockStep_preserves _ _ hstep ih

/-! ### The claims -/

/-- Claim C1: the spec says `set_handler` writes the kernel code segment
selector defined by the segment table (`KERNEL_CODE_SELECTOR = 0x28`)
together with type/attribute 0x8E (present, DPL 0, interrupt gate).  The
code hardcodes selector 0x08 — a Limine-reserved null slot of this GDT —
so the selector field never equals the segment table's kernel code
selector, although the type/attribute byte is as specified.  Evaluated at
vector 33 with a concrete entry point. -/
theorem set_handler_writes_selector_0x08 :
    (∀ handler : Nat, (IdtEntry.new handler).selector = 0x08 ∧
      (IdtEntry.new handler).type_attr = 0x8E) ∧
    KERNEL_CODE_SELECTOR = 0x28 ∧
    ((Idt.new.set_handler 33 0x12345678).entries.getD 33 IdtEntry.null).selector = 0x08 ∧
    ((Idt.new.set_handler 33 0x12345678).entries.getD 33 IdtEntry.null).selector ≠
      KERNEL_CODE_SELECTOR := by
  refine ⟨fun handler => ⟨rfl, rfl⟩, rfl, ?_, ?_⟩ <;> decide

/-- Claim C2: for `n ≥ 1`, `allocate_contiguous_frames n` fails exactly
when no single region contains a run of `n` consecutive free frames (and
then leaves the state unchanged); on success the returned address starts a
run of `n` previously free frames lying entirely inside one input region —
the span never crosses two regions — and exactly those `n` frames become
allocated, with `used_frames` increased by `n`. -/
theorem allocate_contiguous_single_region (a : FrameAllocator) (n : Nat) (hn : 1 ≤ n) :
    ((a.allocate_contiguous_frames n).1 = none ↔
      ¬∃ j, j < a.regions.length ∧ ∃ s, regionFreeRun a j s n) ∧
    ((a.allocate_contiguous_frames n).1 = none →
      (a.allocate_contiguous_frames n).2 = a) ∧
    (∀ phys, (a.allocate_contiguous_frames n).1 = some phys →
      ∃ j, j < a.regions.length ∧ ∃ s, regionFreeRun a j s n ∧
        phys = (a.regions.getD j ⟨0, 0⟩).base + s * FRAME_SIZE ∧
        (a.regions.getD j ⟨0, 0⟩).base ≤ phys ∧
        phys + n * FRAME_SIZE ≤
          (a.regions.getD j ⟨0, 0⟩).base +
            (a.regions.getD j ⟨0, 0⟩).frame_count * FRAME_SIZE ∧
        (a.allocate_contiguous_frames n).2 =
          { a with
            bitmap := setRange a.bitmap (regionStart a.regions j + s) n
            used_frames := a.used_frames + n }) := by
  have hn0 : ¬n = 0 := by omega
  cases hrun : allocContigAux a.bitmap n a.regions 0 with
  | none =>
    have hres : a.allocate_contiguous_frames n = (none, a) := by
      simp [FrameAllocator.allocate_contiguous_frames, hn0, hrun]
    rw [hres]
    refine ⟨⟨fun _ => ?_, fun _ => rfl⟩, fun _ => rfl, fun phys h => by simp at h⟩
    rintro ⟨j, hj, s, hfree⟩
    simp only [regionFreeRun] at hfree
    obtain ⟨i, hi, hbit⟩ :=
      allocContigAux_complete a.bitmap n (by omega) a.regions 0 hrun j hj s hfree.1
    have hfalse := hfree.2 i hi
    rw [show regionStart a.regions j + s + i =
      0 + sumRegions (a.regions.take j) + s + i by simp [regionStart]] at hfalse
    rw [hfalse] at hbit
    exact Bool.noConfusion hbit
  | some pr =>
    obtain ⟨bfi, phys0⟩ := pr
    have hres : a.allocate_contiguous_frames n =
        (some phys0,
         { a with
           bitmap := setRange a.bitmap bfi n
           used_frames := a.used_frames + n }) := by
      simp [FrameAllocator.allocate_contiguous_frames, hn0, hrun]
    obtain ⟨j, hj, s, hc1, hc2, hbfi, hphys, hclear⟩ :=
      allocContigAux_sound a.bitmap n (by omega) a.regions 0 bfi phys0 hrun
    have hfreerun : regionFreeRun a j s n := by
      simp only [regionFreeRun]
      refine ⟨hc2, fun i hi => ?_⟩
      have := hclear i hi
      rw [hbfi] at this
      rw [show regionStart a.regions j + s + i =
        0 + sumRegions (a.regions.take j) + s + i by simp [regionStart]]
      exact this
    rw [hres]
    refine ⟨⟨fun h => by simp at h, fun hno => absurd ⟨j, hj, s, hfreerun⟩ hno⟩,
      fun h => by simp at h, fun phys hsome => ?_⟩
    have hpe : phys0 = phys := by
      simpa using hsome
    refine ⟨j, hj, s, hfreerun, by rw [← hpe, hphys], ?_, ?_, ?_⟩
    · rw [← hpe, hphys]; omega
    · rw [← hpe, hphys]
      have h1 : (s + n) * FRAME_SIZE ≤
          (a.regions.getD j ⟨0, 0⟩).frame_count * FRAME_SIZE :=
        Nat.mul_le_mul_right _ hc2
      rw [Nat.add_mul] at h1
      omega
    · have hb2 : bfi = regionStart a.regions j + s := by
        simp [regionStart, hbfi]
      rw [hb2]

/-- Claim C2 witness: the theorem instantiated at the fresh two-region
allocator (regions of 10 and 3 frames) with a request for 5 contiguous
frames, the scenario called out by the spec. -/
theorem allocate_contiguous_single_region_witness :
    ((exTwoRegion.allocate_contiguous_frames 5).1 = none ↔
      ¬∃ j, j < exTwoRegion.regions.length ∧ ∃ s, regionFreeRun exTwoRegion j s 5) ∧
    ((exTwoRegion.allocate_contiguous_frames 5).1 = none →
      (exTwoRegion.allocate_contiguous_frames 5).2 = exTwoRegion) ∧
    (∀ phys, (exTwoRegion.allocate_contiguous_frames 5).1 = some phys →
      ∃ j, j < exTwoRegion.regions.length ∧ ∃ s, regionFreeRun exTwoRegion j s 5 ∧
        phys = (exTwoRegion.regions.getD j ⟨0, 0⟩).base + s * FRAME_SIZE ∧
        (exTwoRegion.regions.getD j ⟨0, 0⟩).base ≤ phys ∧
        phys + 5 * FRAME_SIZE ≤
          (exTwoRegion.regions.getD j ⟨0, 0⟩).base +
            (exTwoRegion.regions.getD j ⟨0, 0⟩).frame_count * FRAME_SIZE ∧
        (exTwoRegion.allocate_contiguous_frames 5).2 =
          { exTwoRegion with
            bitmap := setRange exTwoRegion.bitmap (regionStart exTwoRegion.regions j + s) 5
            used_frames := exTwoRegion.used_frames + 5 }) :=
  allocate_contiguous_single_region exTwoRegion 5 (by decide)

/-- Claim C3: `allocate_frame` takes the first clear bit index below
`total_frames` in increasing order, sets it, increments `used_frames`, and
returns the address computed by the in-order region walk of
`frame_index_to_phys`; when every index in range is set it returns the
failure value and changes nothing. -/
theorem allocate_frame_first_fit (a : FrameAllocator) :
    ((∀ j, j < a.total_frames → a.bitmap j = true) → a.allocate_frame = (none, a)) ∧
    (∀ idx, idx < a.total_frames → a.bitmap idx = false →
      (∀ j, j < idx → a.bitmap j = true) →
      a.allocate_frame =
        (a.frame_index_to_phys idx,
         { a with
           bitmap := setBit a.bitmap idx
           used_frames := a.used_frames + 1 })) := by
  constructor
  · intro hall
    have hnone : scanClear a.bitmap 0 a.total_frames = none :=
      (scanClear_none_iff a.bitmap a.total_frames 0).mpr fun j _ hj => hall j (by omega)
    simp [FrameAllocator.allocate_frame, hnone]
  · intro idx h1 h2 h3
    have hsome : scanClear a.bitmap 0 a.total_frames = some idx :=
      scanClear_eq_some a.bitmap a.total_frames 0 idx (Nat.zero_le idx) (by omega) h2
        fun j _ hj => h3 j hj
    simp [FrameAllocator.allocate_frame, hsome]

/-- Claim C3 witness: the theorem's second clause at the fresh one-region
allocator, first clear index 0. -/
theorem allocate_frame_first_fit_witness :
    exOneRegion.allocate_frame =
      (exOneRegion.frame_index_to_phys 0,
       { exOneRegion with
         bitmap := setBit exOneRegion.bitmap 0
         used_frames := exOneRegion.used_frames + 1 }) :=
  (allocate_frame_first_fit exOneRegion).2 0 (by decide) rfl
    (fun j hj => absurd hj (by omega))

/-- Claim C4: after `init` from any memory map, every sequence of
`allocate_frame` / `allocate_contiguous_frames` / `deallocate_frame` calls
keeps `used_frames` equal to the population count of set bits on
`[0, total_frames)`, and `total_frames` stays fixed at the sum of the
recorded regions' frame counts. -/
theorem allocator_invariant_holds (memory_map : List LimineMemoryMapEntry) (hhdm : Nat)
    (ops : List AllocOp) :
    (runOps (FrameAllocator.new.init memory_map hhdm) ops).used_frames =
      countSet (runOps (FrameAllocator.new.init memory_map hhdm) ops).bitmap
        (runOps (FrameAllocator.new.init memory_map hhdm) ops).total_frames ∧
    (runOps (FrameAllocator.new.init memory_map hhdm) ops).total_frames =
      sumRegions (runOps (FrameAllocator.new.init memory_map hhdm) ops).regions ∧
    (runOps (FrameAllocator.new.init memory_map hhdm) ops).total_frames =
      (FrameAllocator.new.init memory_map hhdm).total_frames := by
  obtain ⟨hinv, _, _⟩ := init_from_new memory_map hhdm
  obtain ⟨⟨g1, g2⟩, _, g3⟩ := runOps_preserves ops _ hinv
  exact ⟨g1, g2, g3⟩

/-- Claim C5: `deallocate_frame` is a silent no-op (state unchanged, no
signal) when the address lies outside every region's half-open interval or
the mapped bit is already clear; when the address lies in a region and the
bit is set, exactly that bit is cleared and `used_frames` drops by one
(a genuine decrement whenever the allocator invariant holds). -/
theorem deallocate_frame_policy (a : FrameAllocator) (phys_addr : Nat) :
    ((∀ r, r ∈ a.regions →
        ¬(r.base ≤ phys_addr ∧ phys_addr < r.base + r.frame_count * FRAME_SIZE)) →
      a.deallocate_frame phys_addr = a) ∧
    (∀ idx, a.phys_to_frame_index phys_addr = some idx → a.bitmap idx = false →
      a.deallocate_frame phys_addr = a) ∧
    (∀ idx, a.phys_to_frame_index phys_addr = some idx → a.bitmap idx = true →
      a.deallocate_frame phys_addr =
        { a with
          bitmap := clearBit a.bitmap idx
          used_frames := a.used_frames - 1 }) ∧
    (∀ idx, a.phys_to_frame_index phys_addr = some idx → a.bitmap idx = true → a.inv →
      (a.deallocate_frame phys_addr).used_frames + 1 = a.used_frames) := by
  refine ⟨?_, ?_, ?_, ?_⟩
  · intro hout
    have hnone : a.phys_to_frame_index phys_addr = none :=
      (physToFrameIndexAux_none_iff phys_addr a.regions 0).mpr hout
    simp [FrameAllocator.deallocate_frame, hnone]
  · intro idx hsome hbit
    simp [FrameAllocator.deallocate_frame, hsome, hbit]
  · intro idx hsome hbit
    simp [FrameAllocator.deallocate_frame, hsome, hbit]
  · intro idx hsome hbit hinv
    have hused : a.used_frames = countSet a.bitmap a.total_frames := hinv.1
    have htot : a.total_frames = sumRegions a.regions := hinv.2
    have hlt : idx < a.total_frames := by
      have := physToFrameIndexAux_lt phys_addr a.regions 0 idx hsome
      omega
    have hcount := countSet_clearBit a.bitmap idx a.total_frames hlt hbit
    have hres : a.deallocate_frame phys_addr =
        { a with
          bitmap := clearBit a.bitmap idx
          used_frames := a.used_frames - 1 } := by
      simp [FrameAllocator.deallocate_frame, hsome, hbit]
    rw [hres]
    show a.used_frames - 1 + 1 = a.used_frames
    omega

/-- Claim C5 witness: on the one-region allocator with frame 0 allocated:
deallocating 0x1000 clears bit 0 and truly decrements `used_frames`;
deallocating 0x5000 (outside the region) is a no-op. -/
theorem deallocate_frame_policy_witness :
    exOneRegionUsed.deallocate_frame 0x1000 =
      { exOneRegionUsed with
        bitmap := clearBit exOneRegionUsed.bitmap 0
        used_frames := exOneRegionUsed.used_frames - 1 } ∧
    exOneRegionUsed.deallocate_frame 0x5000 = exOneRegionUsed ∧
    (exOneRegionUsed.deallocate_frame 0x1000).used_frames + 1 =
      exOneRegionUsed.used_frames :=
  ⟨(deallocate_frame_policy exOneRegionUsed 0x1000).2.2.1 0 (by decide) (by decide),
   (deallocate_frame_policy exOneRegionUsed 0x5000).1 (by decide),
   (deallocate_frame_policy exOneRegionUsed 0x1000).2.2.2 0 (by decide) (by decide)
     ⟨rfl, rfl⟩⟩

/-- Claim C6: with usable regions A (base 0x100000, length 0x400000 =
1024 frames) and B (base 0x800000, length 0x100000 = 256 frames), `init`
reports `total_frames = 1280`, and the 1025th single-frame allocation from
the all-free state returns 0x800000 — region B's base — which lies outside
region A. -/
theorem two_region_boundary_allocation :
    exBootAlloc.total_frames = 1280 ∧
    (iterAlloc exBootAlloc 1024).allocate_frame.1 = some 0x800000 ∧
    ¬(0x100000 ≤ 0x800000 ∧ (0x800000 : Nat) < 0x100000 + 0x400000) := by
  have htot : exBootAlloc.total_frames = 1280 := by decide
  have hbm : exBootAlloc.bitmap = fun _ => false := rfl
  have hstate := iterAlloc_fresh exBootAlloc hbm 1024 (by rw [htot]; omega)
  refine ⟨htot, ?_, by decide⟩
  rw [hstate]
  have hscan : scanClear (fun i => decide (i < 1024)) 0 exBootAlloc.total_frames =
      some 1024 :=
    scanClear_eq_some _ _ 0 1024 (Nat.zero_le 1024) (by rw [htot]; omega) (by decide)
      (fun j _ hj => by simpa using hj)
  simp only [FrameAllocator.allocate_frame, hscan]
  decide

/-- Claim C7: assembling the kernel code descriptor from the documented
bit constants yields exactly access byte 0x9A and granularity/flags byte
0xA0, matching the entry at byte offset 0x28 (index 5) of the table. -/
theorem kernel_code_descriptor_bytes :
    PRESENT ||| DPL_0 ||| DESCRIPTOR_TYPE ||| EXECUTABLE ||| RW = 0x9A ∧
    GRANULARITY ||| LONG_MODE = 0xA0 ∧
    KERNEL_CODE_SELECTOR = 5 * 8 ∧
    (Gdt.new.table.getD 5 GdtEntry.null).access = 0x9A ∧
    (Gdt.new.table.getD 5 GdtEntry.null).granularity = 0xA0 := by
  decide

/-- Claim C8: `send_eoi(irq)` writes the end-of-interrupt byte to the
secondary controller's command port first exactly when `irq ≥ 8`, and in
every case then writes it to the primary controller's command port. -/
theorem send_eoi_order (irq : Nat) :
    send_eoi irq =
      if 8 ≤ irq then [(PIC2_COMMAND, PIC_EOI), (PIC1_COMMAND, PIC_EOI)]
      else [(PIC1_COMMAND, PIC_EOI)] := by
  by_cases h : 8 ≤ irq <;> simp [send_eoi, h]

/-- Claim C9: in the two-context interleaving model of the spin lock, at
most one context holds the lock in any reachable state (mutual exclusion);
releasing performs exactly one transition that clears the locked flag, and
from the released state the lock can be acquired again (no permanent
lock-out). -/
theorem spinlock_mutex_release_reacquire :
    (∀ s, LockReach s → ¬(s.ctx1 = CtxState.holding ∧ s.ctx2 = CtxState.holding)) ∧
    (∀ s, LockReach s → s.ctx1 = CtxState.holding →
      LockStep s { locked := false, ctx1 := CtxState.idle, ctx2 := s.ctx2 } ∧
      ({ locked := false, ctx1 := CtxState.idle, ctx2 := s.ctx2 } : LockSys).locked =
        false ∧
      ∃ t, LockStep { locked := false, ctx1 := CtxState.idle, ctx2 := s.ctx2 } t ∧
        t.ctx1 = CtxState.holding) := by
  constructor
  · intro s hreach
    exact (lockReach_inv s hreach).2
  · intro s hreach hheld
    exact ⟨LockStep.release1 s hheld, rfl,
      ⟨_, LockStep.acquire1 _ rfl rfl, rfl⟩⟩

/-- Claim C9 witness: instantiated at the reachable state in which context
1 holds the lock (reached by one acquire from the initial state). -/
theorem spinlock_mutex_release_reacquire_witness :
    ¬(({ locked := true, ctx1 := CtxState.holding, ctx2 := CtxState.idle } : LockSys).ctx1 =
        CtxState.holding ∧
      ({ locked := true, ctx1 := CtxState.holding, ctx2 := CtxState.idle } : LockSys).ctx2 =
        CtxState.holding) ∧
    LockStep { locked := true, ctx1 := CtxState.holding, ctx2 := CtxState.idle }
      { locked := false, ctx1 := CtxState.idle, ctx2 := CtxState.idle } := by
  have hreach : LockReach
      { locked := true, ctx1 := CtxState.holding, ctx2 := CtxState.idle } :=
    LockReach.step LockReach.start (LockStep.acquire1 LockSys.start rfl rfl)
  exact ⟨spinlock_mutex_release_reacquire.1 _ hreach,
    (spinlock_mutex_release_reacquire.2 _ hreach rfl).1⟩

/-- Claim C10: a zero-frame contiguous request is rejected up front: it
returns the failure value and leaves the bitmap, `used_frames`, and
`total_frames` unchanged. -/
theorem allocate_contiguous_zero_rejected (a : FrameAllocator) :
    a.allocate_contiguous_frames 0 = (none, a) := rfl

end Wflos
